import Mathlib

/-!
Verification development for the EdgeAlert market-alert bot (src/main.py).

The alerting core is embedded shallowly:
* timestamps are natural numbers counted in minutes, so the 30-minute
  cooldown window and the calendar-day grouping `DATE(timestamp)` become
  explicit arithmetic (`dateOf t = t / 1440`);
* the SQLite tables `alert_cache` and `market_cache` become association
  lists keyed exactly as the tables are keyed;
* prices, volumes and thresholds are rationals;
* the delivery attempt (`bot.fetch_user` + `send_alert_embed`, which may
  raise) is an oracle `ok : Bool` per (market, user) attempt: the
  surrounding code behaves identically in both cases except for the
  success log.
-/

namespace EdgeAlert

/-- Cooldown window of `should_send_alert`: `timedelta(minutes=30)`. -/
def cooldownMinutes : Nat := 30

/-- Minutes in one calendar day, used to model `DATE(timestamp)`. -/
def minutesPerDay : Nat := 1440

/-- Free-tier daily limit: `if alert_count >= 3: continue`. -/
def dailyFreeLimit : Nat := 3

/-- Calendar date of a timestamp, modelling SQLite `DATE(timestamp)`. -/
def dateOf (t : Nat) : Nat := t / minutesPerDay

/-- Simplified market dictionary produced by `fetch_polymarket_markets`. -/
structure Market where
  id : String
  question : List Char
  yes_price : ℚ
  volume_24h : ℚ
  category : List Char
deriving DecidableEq

/-- Row of the `market_cache` table as read by `get_cached_market_data`. -/
structure CachedMarketData where
  last_price : ℚ
  last_volume : ℚ
deriving DecidableEq

/-- Row of the `users` table as read by `poll_markets`
(`SELECT user_id, keywords, threshold, is_pro FROM users`);
the keyword column is already split into words (`keywords.split()`). -/
structure UserRow where
  user_id : String
  keywords : List (List Char)
  threshold : ℚ
  is_pro : Bool

/-- Primary key of the `alert_cache` table: (market_id, user_id). -/
abbrev AlertKey := String × String

/-- The `alert_cache` table: rows ((market_id, user_id), timestamp). -/
abbrev AlertCache := List (AlertKey × Nat)

/-- The `market_cache` table: rows (market_id, (last_price, last_volume)). -/
abbrev MarketCache := List (String × CachedMarketData)

/-- SELECT timestamp FROM alert_cache WHERE market_id = ? AND user_id = ?. -/
def lookupAlert (cache : AlertCache) (k : AlertKey) : Option Nat :=
  (cache.find? (fun e => decide (e.1 = k))).map (·.2)

/-- INSERT OR REPLACE INTO alert_cache (market_id, user_id, timestamp). -/
def insertOrReplaceAlert (cache : AlertCache) (k : AlertKey) (t : Nat) : AlertCache :=
  (k, t) :: cache.filter (fun e => decide (e.1 ≠ k))

/-- Cooldown gate `should_send_alert(market_id, user_id)`: denies when a
row exists whose timestamp is within 30 minutes of `now`; otherwise
records `now` for the pair and grants. -/
def should_send_alert (cache : AlertCache) (market_id user_id : String) (now : Nat) :
    Bool × AlertCache :=
  match lookupAlert cache (market_id, user_id) with
  | some last =>
    if now - last < cooldownMinutes then (false, cache)
    else (true, insertOrReplaceAlert cache (market_id, user_id) now)
  | none => (true, insertOrReplaceAlert cache (market_id, user_id) now)

/-- SELECT COUNT(*) FROM alert_cache WHERE user_id = ? AND DATE(timestamp) = ?. -/
def countAlertsToday (cache : AlertCache) (user_id : String) (today : Nat) : Nat :=
  (cache.filter (fun e => decide (e.1.2 = user_id ∧ dateOf e.2 = today))).length

/-- SELECT last_price, last_volume FROM market_cache WHERE market_id = ?. -/
def get_cached_market_data (mc : MarketCache) (market_id : String) :
    Option CachedMarketData :=
  (mc.find? (fun e => decide (e.1 = market_id))).map (·.2)

/-- INSERT OR REPLACE INTO market_cache (`update_market_cache`). -/
def update_market_cache (mc : MarketCache) (m : Market) : MarketCache :=
  (m.id, ⟨m.yes_price, m.volume_24h⟩) :: mc.filter (fun e => decide (e.1 ≠ m.id))

/-- Alert classification strings returned by `check_alert_conditions`. -/
inductive AlertType where
  | price_shift
  | whale_alert
deriving DecidableEq

/-- The `details` dictionary returned by `check_alert_conditions`. -/
structure AlertDetails where
  old_price : ℚ
  new_price : ℚ
  change_pct : ℚ
  volume_spike : ℚ
deriving DecidableEq

/-- Nearest integer with ties to the even choice, on exact rationals
(Python's documented rounding rule). -/
def intRoundHalfEven (x : ℚ) : ℤ :=
  let q : ℤ := x.num.ediv (x.den : ℤ)
  let r : ℚ := x - (q : ℚ)
  if r < 1/2 then q
  else if 1/2 < r then q + 1
  else if q % 2 = 0 then q else q + 1

/-- Python `round(x, 1)` modelled on exact rationals. -/
def roundTo1 (x : ℚ) : ℚ := (intRoundHalfEven (x * 10) : ℚ) / 10

/-- Price change percentage of `check_alert_conditions`, guarded against a
zero prior price. -/
def priceChangePct (m : Market) (old : CachedMarketData) : ℚ :=
  if old.last_price > 0 then (m.yes_price - old.last_price) / old.last_price * 100 else 0

/-- Volume change percentage of `check_alert_conditions`, guarded against a
zero prior volume. -/
def volumeChangePct (m : Market) (old : CachedMarketData) : ℚ :=
  if old.last_volume > 0 then (m.volume_24h - old.last_volume) / old.last_volume * 100 else 0

/-- Alert decision `check_alert_conditions(market, old_data, threshold)`.
Returns the classification and the details dictionary, or `none`. -/
def check_alert_conditions (m : Market) (old_data : Option CachedMarketData)
    (threshold : ℚ) : Option (AlertType × AlertDetails) :=
  match old_data with
  | none => none
  | some old =>
    if |priceChangePct m old| ≥ threshold then
      some (.price_shift,
        ⟨old.last_price * 100, m.yes_price * 100,
         roundTo1 (priceChangePct m old), roundTo1 (volumeChangePct m old)⟩)
    else if volumeChangePct m old > 200 ∧ m.volume_24h > 5000 then
      some (.whale_alert,
        ⟨old.last_price * 100, m.yes_price * 100,
         roundTo1 (priceChangePct m old), roundTo1 (volumeChangePct m old)⟩)
    else none

/-- Does `needle` start `hay`? Helper for the substring test. -/
def leadsChars (needle hay : List Char) : Bool :=
  match needle, hay with
  | [], _ => true
  | _ :: _, [] => false
  | a :: as, b :: bs => a == b && leadsChars as bs

/-- Python substring containment `needle in hay` on character lists. -/
def occursIn (needle hay : List Char) : Bool :=
  match hay with
  | [] => needle.isEmpty
  | _ :: bs => leadsChars needle hay || occursIn needle bs

/-- Python `str.lower()` on a character list. -/
def lowerChars (s : List Char) : List Char := s.map Char.toLower

/-- Keyword filter inlined in the user loop of `poll_markets`: proceed
unless the user has keywords and none is a substring of the lowercased
question nor equal to the category. -/
def marketMatches (keywords : List (List Char)) (m : Market) : Bool :=
  keywords.isEmpty ||
    keywords.any (fun kw => occursIn kw (lowerChars m.question) || kw == m.category)

/-- One alert delivery attempt as logged by the user loop; `delivered` is
false when `bot.fetch_user`/`send_alert_embed` raised. -/
structure Delivery where
  market_id : String
  user_id : String
  time : Nat
  alert_type : AlertType
  details : AlertDetails
  delivered : Bool
deriving DecidableEq

/-- Body of the inner user loop of `poll_markets` for one (market, user)
pair: keyword filter, `check_alert_conditions`, the cooldown gate
`should_send_alert`, the free-tier quota query (run after the gate has
already written the slot), then the delivery attempt with outcome `ok`. -/
def stepUser (now : Nat) (m : Market) (old_data : Option CachedMarketData)
    (cache : AlertCache) (u : UserRow) (ok : Bool) : AlertCache × Option Delivery :=
  if marketMatches u.keywords m = false then (cache, none)
  else
    match check_alert_conditions m old_data u.threshold with
    | none => (cache, none)
    | some (ty, details) =>
      match should_send_alert cache m.id u.user_id now with
      | (false, cache1) => (cache1, none)
      | (true, cache1) =>
        if u.is_pro = false ∧ dailyFreeLimit ≤ countAlertsToday cache1 u.user_id (dateOf now)
        then (cache1, none)
        else (cache1, some ⟨m.id, u.user_id, now, ty, details, ok⟩)

/-- The user loop of `poll_markets` for one market: fold `stepUser` over
the user rows, collecting the delivery attempts. -/
def processUsers (now : Nat) (m : Market) (old_data : Option CachedMarketData)
    (ok : String → String → Bool) (cache : AlertCache) :
    List UserRow → AlertCache × List Delivery
  | [] => (cache, [])
  | u :: rest =>
    let r1 := stepUser now m old_data cache u (ok m.id u.user_id)
    let r2 := processUsers now m old_data ok r1.1 rest
    (r2.1, r1.2.toList ++ r2.2)

/-- Combined durable state: the `alert_cache` and `market_cache` tables. -/
structure BotState where
  alert_cache : AlertCache
  market_cache : MarketCache

/-- Body of the market loop of `poll_markets` for one market: read the
cached prior data, run every user, then unconditionally
`update_market_cache`. -/
def processMarket (now : Nat) (users : List UserRow) (ok : String → String → Bool)
    (st : BotState) (m : Market) : BotState × List Delivery :=
  let old_data := get_cached_market_data st.market_cache m.id
  let r := processUsers now m old_data ok st.alert_cache users
  (⟨r.1, update_market_cache st.market_cache m⟩, r.2)

/-- The market loop of `poll_markets`. -/
def processMarkets (now : Nat) (users : List UserRow) (ok : String → String → Bool)
    (st : BotState) : List Market → BotState × List Delivery
  | [] => (st, [])
  | m :: rest =>
    let r1 := processMarket now users ok st m
    let r2 := processMarkets now users ok r1.1 rest
    (r2.1, r1.2 ++ r2.2)

/-- One polling cycle `poll_markets`: return unchanged when the fetch was
empty or no user is subscribed, otherwise run the market loop. -/
def poll_markets (now : Nat) (st : BotState) (markets : List Market)
    (users : List UserRow) (ok : String → String → Bool) : BotState × List Delivery :=
  if markets.isEmpty then (st, [])
  else if users.isEmpty then (st, [])
  else processMarkets now users ok st markets

/-- Input to one polling cycle: the cycle's wall-clock time, the fetched
markets, the current user rows, and the delivery outcome oracle. -/
structure CycleInput where
  now : Nat
  markets : List Market
  users : List UserRow
  ok : String → String → Bool

/-- A sequence of polling cycles, threading the durable state. -/
def runCycles (st : BotState) : List CycleInput → BotState × List Delivery
  | [] => (st, [])
  | c :: rest =>
    let r1 := poll_markets c.now st c.markets c.users c.ok
    let r2 := runCycles r1.1 rest
    (r2.1, r1.2 ++ r2.2)

/-- Fresh database created by `init_database`: both tables empty. -/
def initState : BotState := ⟨[], []⟩

/-- Keys of the `alert_cache` rows are pairwise distinct (the table's
PRIMARY KEY constraint). -/
def uniqKeys (cache : AlertCache) : Prop := (cache.map (·.1)).Nodup

/-- Distinct market ids having an `alert_cache` row for `u` dated `D`. -/
def todayMids (cache : AlertCache) (u : String) (D : Nat) : Finset String :=
  ((cache.filter (fun e => decide (e.1.2 = u ∧ dateOf e.2 = D))).map (·.1.1)).toFinset

/-- Distinct market ids among the successfully delivered alerts for user
`u` whose delivery time falls on day `D`. -/
def deliveredMids (ds : List Delivery) (u : String) (D : Nat) : Finset String :=
  ((ds.filter (fun d => decide (d.user_id = u ∧ dateOf d.time = D ∧ d.delivered = true))).map
    (·.market_id)).toFinset

/-- Content of a delivery attempt without its success flag. -/
def stripDelivered (d : Delivery) : String × String × Nat × AlertType × AlertDetails :=
  (d.market_id, d.user_id, d.time, d.alert_type, d.details)

/-- One call to the cooldown gate: the (market_id, user_id) key and the
wall-clock time of the call. -/
abbrev GateCall := AlertKey × Nat

/-- Run a sequence of gate calls from a cache, annotating each call with
the Boolean the gate returned. -/
def runGate (cache : AlertCache) : List GateCall → List (GateCall × Bool)
  | [] => []
  | (k, t) :: rest =>
    ((k, t), (should_send_alert cache k.1 k.2 t).1) ::
      runGate (should_send_alert cache k.1 k.2 t).2 rest

/-- Cache state after a sequence of gate calls. -/
def runGateCache (cache : AlertCache) : List GateCall → AlertCache
  | [] => cache
  | (k, t) :: rest => runGateCache (should_send_alert cache k.1 k.2 t).2 rest

/-- Time of the last granted call for a key in an annotated trace. -/
def lastGrantTime (k : AlertKey) : List (GateCall × Bool) → Option Nat
  | [] => none
  | e :: rest =>
    match lastGrantTime k rest with
    | some t' => some t'
    | none => if e.1.1 = k ∧ e.2 = true then some e.1.2 else none

/-- Variant of the user-loop body following the specification's wording
for the quota read: the daily count is taken from the store as it was
BEFORE the cooldown slot for the current alert is recorded. It differs
from `stepUser` (the code) only in which cache the count reads. -/
def stepUserCountBeforeGrant (now : Nat) (m : Market) (old_data : Option CachedMarketData)
    (cache : AlertCache) (u : UserRow) (ok : Bool) : AlertCache × Option Delivery :=
  if marketMatches u.keywords m = false then (cache, none)
  else
    match check_alert_conditions m old_data u.threshold with
    | none => (cache, none)
    | some (ty, details) =>
      match should_send_alert cache m.id u.user_id now with
      | (false, cache1) => (cache1, none)
      | (true, cache1) =>
        if u.is_pro = false ∧ dailyFreeLimit ≤ countAlertsToday cache u.user_id (dateOf now)
        then (cache1, none)
        else (cache1, some ⟨m.id, u.user_id, now, ty, details, ok⟩)

/-! Concrete data for evaluating the development on explicit inputs. -/

/-- Market snapshot with id "m", question "q", category "g". -/
def mkSnap (p v : ℚ) : Market := ⟨"m", ['q'], p, v, ['g']⟩

/-- Free-tier user "u" with no keywords and the default 5.0 threshold. -/
def freeUserU : UserRow := ⟨"u", [], 5, false⟩

/-- Delivery oracle under which every send succeeds. -/
def alwaysOk : String → String → Bool := fun _ _ => true

/-- One-market, one-user cycle at time `t` with price `p`, volume 1000. -/
def onePollCycle (t : Nat) (p : ℚ) : CycleInput :=
  ⟨t, [mkSnap p 1000], [freeUserU], alwaysOk⟩

/-- Five cycles inside calendar day 0; the price swings past the 5 percent
threshold every 30 minutes. -/
def swingTrace : List CycleInput :=
  [onePollCycle 0 (1/2), onePollCycle 30 (3/5), onePollCycle 60 (1/2),
   onePollCycle 90 (3/5), onePollCycle 120 (1/2)]

/-- Alert cache holding two prior day-0 alert records for user "u". -/
def twoPriorCache : AlertCache := [(("a", "u"), 10), (("b", "u"), 20)]

/-- A third market "c" that qualifies against prior data (0.5, 1000). -/
def thirdMarket : Market := ⟨"c", ['q'], 3/5, 1000, ['g']⟩

/-- Market for the detector examples: price 0.48, volume 1200. -/
def detectMarket : Market := ⟨"m", ['q'], 12/25, 1200, ['g']⟩

/-- Prior cached state (0.4, 1000). -/
def priorData : CachedMarketData := ⟨2/5, 1000⟩

/-- Market satisfying both alert rules: price 0.48 (20 percent move) and
volume 5500 (450 percent spike above the 5000 floor). -/
def bothRulesMarket : Market := ⟨"m", ['q'], 12/25, 5500, ['g']⟩

/-- Market whose question contains "CAT" in upper case. -/
def catMarket : Market :=
  ⟨"m", ['B', 'i', 'g', ' ', 'C', 'A', 'T'], 1/2, 1000, ['g']⟩

/-- Alert cache with a single record for ("m", "u") at minute 10. -/
def oneRecordCache : AlertCache := [(("m", "u"), 10)]

/-! Basic lemmas about the `alert_cache` association list. -/

theorem mem_insertOrReplaceAlert {cache : AlertCache} {k : AlertKey} {t : Nat}
    {e : AlertKey × Nat} :
    e ∈ insertOrReplaceAlert cache k t ↔ e = (k, t) ∨ (e ∈ cache ∧ e.1 ≠ k) := by
  simp [insertOrReplaceAlert, List.mem_filter, and_comm]

theorem lookupAlert_insert_self (cache : AlertCache) (k : AlertKey) (t : Nat) :
    lookupAlert (insertOrReplaceAlert cache k t) k = some t := by
  simp [lookupAlert, insertOrReplaceAlert, List.find?_cons]

theorem lookupAlert_insert_ne (cache : AlertCache) {k k' : AlertKey} (t : Nat)
    (h : k' ≠ k) :
    lookupAlert (insertOrReplaceAlert cache k t) k' = lookupAlert cache k' := by
  simp only [lookupAlert, insertOrReplaceAlert]
  rw [List.find?_cons_of_neg _ (by simp [Ne.symm h]), List.find?_filter]
  have hp : (fun (a : AlertKey × Nat) =>
      decide ((decide (a.1 ≠ k)) = true ∧ (decide (a.1 = k')) = true)) =
      (fun (a : AlertKey × Nat) => decide (a.1 = k')) := by
    funext a
    by_cases ha : a.1 = k'
    · simp [ha, h]
    · simp [ha]
  rw [hp]

theorem lookupAlert_mem {cache : AlertCache} {k : AlertKey} {t : Nat}
    (h : lookupAlert cache k = some t) : (k, t) ∈ cache := by
  simp only [lookupAlert, Option.map_eq_some'] at h
  obtain ⟨e, he, ht⟩ := h
  have hm := List.mem_of_find?_eq_some he
  have hp := List.find?_some he
  simp only [decide_eq_true_eq] at hp
  cases e
  simp_all

theorem lookupAlert_eq_none {cache : AlertCache} {k : AlertKey}
    (h : ∀ t, (k, t) ∉ cache) : lookupAlert cache k = none := by
  simp only [lookupAlert, Option.map_eq_none', List.find?_eq_none, decide_eq_true_eq]
  intro e he hk
  exact h e.2 (by cases e; simp_all)

theorem uniqKeys_insertOrReplaceAlert {cache : AlertCache} (k : AlertKey) (t : Nat)
    (h : uniqKeys cache) : uniqKeys (insertOrReplaceAlert cache k t) := by
  simp only [uniqKeys, insertOrReplaceAlert, List.map_cons, List.nodup_cons]
  constructor
  · intro hk
    simp only [List.mem_map, List.mem_filter, decide_eq_true_eq] at hk
    obtain ⟨e, ⟨_, hne⟩, he⟩ := hk
    exact hne he
  · exact (h.sublist ((List.filter_sublist _).map _))

/-! Lemmas about the cooldown gate `should_send_alert`. -/

theorem should_send_alert_denied {cache : AlertCache} {mid uid : String} {now last : Nat}
    (hl : lookupAlert cache (mid, uid) = some last) (hlt : now < last + cooldownMinutes) :
    should_send_alert cache mid uid now = (false, cache) := by
  have hc : now - last < cooldownMinutes := by
    simp only [cooldownMinutes] at hlt ⊢
    omega
  simp [should_send_alert, hl, hc]

theorem should_send_alert_granted {cache : AlertCache} {mid uid : String} {now : Nat}
    (h : ∀ last, lookupAlert cache (mid, uid) = some last → last + cooldownMinutes ≤ now) :
    should_send_alert cache mid uid now =
      (true, insertOrReplaceAlert cache (mid, uid) now) := by
  unfold should_send_alert
  cases hl : lookupAlert cache (mid, uid) with
  | none => rfl
  | some last =>
    have h30 := h last hl
    have hc : ¬ (now - last < cooldownMinutes) := by
      simp only [cooldownMinutes] at h30 ⊢
      omega
    simp [hc]

theorem should_send_alert_fst_true {cache : AlertCache} {mid uid : String} {now : Nat} :
    (should_send_alert cache mid uid now).1 = true ↔
      ∀ last, lookupAlert cache (mid, uid) = some last → last + cooldownMinutes ≤ now := by
  constructor
  · intro h last hl
    by_contra hlt
    rw [should_send_alert_denied hl (by omega)] at h
    simp at h
  · intro h
    rw [should_send_alert_granted h]

theorem should_send_alert_snd {cache : AlertCache} {mid uid : String} {now : Nat} :
    (should_send_alert cache mid uid now).2 =
      if (should_send_alert cache mid uid now).1 = true
      then insertOrReplaceAlert cache (mid, uid) now else cache := by
  unfold should_send_alert
  cases lookupAlert cache (mid, uid) with
  | none => simp
  | some last =>
    by_cases hlt : now - last < cooldownMinutes
    · simp [hlt]
    · simp [hlt]

/-! Lemmas about day grouping, `todayMids` and `countAlertsToday`. -/

theorem dateOf_mono {s t : Nat} (h : s ≤ t) : dateOf s ≤ dateOf t :=
  Nat.div_le_div_right h

theorem mem_todayMids {cache : AlertCache} {x u : String} {D : Nat} :
    x ∈ todayMids cache u D ↔ ∃ t, ((x, u), t) ∈ cache ∧ dateOf t = D := by
  simp only [todayMids, List.mem_toFinset, List.mem_map, List.mem_filter, decide_eq_true_eq]
  constructor
  · rintro ⟨e, ⟨hmem, hu, hd⟩, hx⟩
    exact ⟨e.2, by obtain ⟨⟨a, b⟩, t⟩ := e; simp_all, hd⟩
  · rintro ⟨t, hmem, hd⟩
    exact ⟨((x, u), t), ⟨hmem, rfl, hd⟩, rfl⟩

theorem todayMids_insert_same_user {cache : AlertCache} {mid u : String} {now D : Nat}
    (hd : dateOf now = D) :
    todayMids (insertOrReplaceAlert cache (mid, u) now) u D =
      insert mid (todayMids cache u D) := by
  ext x
  simp only [mem_todayMids, Finset.mem_insert]
  constructor
  · rintro ⟨t, hmem, hdt⟩
    rcases mem_insertOrReplaceAlert.1 hmem with h | ⟨hmem', hne⟩
    · left
      exact congrArg (fun p => p.1.1) h
    · right
      exact ⟨t, hmem', hdt⟩
  · rintro (rfl | ⟨t, hmem, hdt⟩)
    · exact ⟨now, mem_insertOrReplaceAlert.2 (Or.inl rfl), hd⟩
    · by_cases hx : x = mid
      · exact ⟨now, mem_insertOrReplaceAlert.2 (Or.inl (by rw [hx])), hd⟩
      · exact ⟨t, mem_insertOrReplaceAlert.2 (Or.inr ⟨hmem, by simp [hx]⟩), hdt⟩

theorem todayMids_insert_other_user {cache : AlertCache} {mid u u' : String} {now D : Nat}
    (hne : u' ≠ u) :
    todayMids (insertOrReplaceAlert cache (mid, u') now) u D = todayMids cache u D := by
  ext x
  simp only [mem_todayMids]
  constructor
  · rintro ⟨t, hmem, hdt⟩
    rcases mem_insertOrReplaceAlert.1 hmem with h | ⟨hmem', _⟩
    · exact absurd (congrArg (fun p => p.1.2) h) hne.symm
    · exact ⟨t, hmem', hdt⟩
  · rintro ⟨t, hmem, hdt⟩
    refine ⟨t, mem_insertOrReplaceAlert.2 (Or.inr ⟨hmem, ?_⟩), hdt⟩
    intro hk
    exact hne (congrArg Prod.snd hk).symm

theorem todayMids_eq_empty {cache : AlertCache} {u : String} {D : Nat}
    (h : ∀ r ∈ cache, dateOf r.2 ≠ D) : todayMids cache u D = ∅ := by
  ext x
  simp only [mem_todayMids, Finset.not_mem_empty, iff_false, not_exists]
  rintro t ⟨hmem, hdt⟩
  exact h _ hmem hdt

theorem countAlertsToday_eq_card {cache : AlertCache} {u : String} {D : Nat}
    (h : uniqKeys cache) :
    countAlertsToday cache u D = (todayMids cache u D).card := by
  classical
  set l := cache.filter (fun e => decide (e.1.2 = u ∧ dateOf e.2 = D)) with hl
  have hkeys : (l.map (·.1)).Nodup := h.sublist ((List.filter_sublist _).map _)
  have hmids : (l.map (·.1.1)).Nodup := by
    have : l.map (·.1.1) = (l.map (·.1)).map (·.1) := by
      simp [List.map_map]
    rw [this]
    refine List.Nodup.map_on ?_ hkeys
    intro x hx y hy hxy
    have hxu : x.2 = u := by
      obtain ⟨e, he, hex⟩ := List.mem_map.1 hx
      have := (List.mem_filter.1 he).2
      simp only [decide_eq_true_eq] at this
      rw [← hex]
      exact this.1
    have hyu : y.2 = u := by
      obtain ⟨e, he, hey⟩ := List.mem_map.1 hy
      have := (List.mem_filter.1 he).2
      simp only [decide_eq_true_eq] at this
      rw [← hey]
      exact this.1
    obtain ⟨x1, x2⟩ := x
    obtain ⟨y1, y2⟩ := y
    simp_all
  rw [countAlertsToday, todayMids, ← hl, List.toFinset_card_of_nodup hmids,
    List.length_map]

/-! Lemmas about `deliveredMids`. -/

theorem deliveredMids_nil (u : String) (D : Nat) : deliveredMids [] u D = ∅ := rfl

theorem deliveredMids_append (l1 l2 : List Delivery) (u : String) (D : Nat) :
    deliveredMids (l1 ++ l2) u D = deliveredMids l1 u D ∪ deliveredMids l2 u D := by
  simp [deliveredMids, List.filter_append, List.toFinset_append]

theorem deliveredMids_eq_empty {ds : List Delivery} {u : String} {D : Nat}
    (h : ∀ d ∈ ds, dateOf d.time ≠ D) : deliveredMids ds u D = ∅ := by
  unfold deliveredMids
  have hnil : ds.filter
      (fun d => decide (d.user_id = u ∧ dateOf d.time = D ∧ d.delivered = true)) = [] := by
    rw [List.filter_eq_nil_iff]
    intro d hd
    simp only [decide_eq_true_eq]
    rintro ⟨-, hdt, -⟩
    exact h d hd hdt
  rw [hnil]
  rfl

theorem mem_deliveredMids {ds : List Delivery} {x u : String} {D : Nat} :
    x ∈ deliveredMids ds u D ↔
      ∃ d ∈ ds, d.market_id = x ∧ d.user_id = u ∧ dateOf d.time = D ∧ d.delivered = true := by
  simp only [deliveredMids, List.mem_toFinset, List.mem_map, List.mem_filter,
    decide_eq_true_eq]
  constructor
  · rintro ⟨d, ⟨hd, hp⟩, hx⟩
    exact ⟨d, hd, hx, hp⟩
  · rintro ⟨d, hd, hx, hp⟩
    exact ⟨d, ⟨hd, hp⟩, hx⟩

/-! Characterization of `stepUser` by cases. -/

theorem stepUser_nomatch {now : Nat} {m : Market} {old : Option CachedMarketData}
    {cache : AlertCache} {u : UserRow} {okb : Bool}
    (hm : marketMatches u.keywords m = false) :
    stepUser now m old cache u okb = (cache, none) := by
  simp [stepUser, hm]

theorem stepUser_nofire {now : Nat} {m : Market} {old : Option CachedMarketData}
    {cache : AlertCache} {u : UserRow} {okb : Bool}
    (hc : check_alert_conditions m old u.threshold = none) :
    stepUser now m old cache u okb = (cache, none) := by
  unfold stepUser
  by_cases hm : marketMatches u.keywords m = false
  · simp [hm]
  · simp [hm, hc]

theorem stepUser_gate_denied {now : Nat} {m : Market} {old : Option CachedMarketData}
    {cache : AlertCache} {u : UserRow} {okb : Bool} {ty : AlertType} {det : AlertDetails}
    (hm : marketMatches u.keywords m = true)
    (hc : check_alert_conditions m old u.threshold = some (ty, det))
    (hg : (should_send_alert cache m.id u.user_id now).1 = false) :
    stepUser now m old cache u okb = (cache, none) := by
  have hsnd := @should_send_alert_snd cache m.id u.user_id now
  rw [hg] at hsnd
  simp only [Bool.false_eq_true, if_false] at hsnd
  have hss : should_send_alert cache m.id u.user_id now = (false, cache) := by
    have h1 : should_send_alert cache m.id u.user_id now =
        ((should_send_alert cache m.id u.user_id now).1,
         (should_send_alert cache m.id u.user_id now).2) := rfl
    rw [h1, hg, hsnd]
  simp [stepUser, hm, hc, hss]

theorem stepUser_granted_eq {now : Nat} {m : Market} {old : Option CachedMarketData}
    {cache : AlertCache} {u : UserRow} {okb : Bool} {ty : AlertType} {det : AlertDetails}
    (hm : marketMatches u.keywords m = true)
    (hc : check_alert_conditions m old u.threshold = some (ty, det))
    (hg : (should_send_alert cache m.id u.user_id now).1 = true) :
    stepUser now m old cache u okb =
      (insertOrReplaceAlert cache (m.id, u.user_id) now,
       if u.is_pro = false ∧ dailyFreeLimit ≤ countAlertsToday
           (insertOrReplaceAlert cache (m.id, u.user_id) now) u.user_id (dateOf now)
       then none
       else some ⟨m.id, u.user_id, now, ty, det, okb⟩) := by
  have hss : should_send_alert cache m.id u.user_id now =
      (true, insertOrReplaceAlert cache (m.id, u.user_id) now) :=
    should_send_alert_granted (should_send_alert_fst_true.1 hg)
  simp [stepUser, hm, hc, hss]
  split <;> rfl

theorem stepUser_shape (now : Nat) (m : Market) (old : Option CachedMarketData)
    (cache : AlertCache) (u : UserRow) (okb : Bool) :
    stepUser now m old cache u okb = (cache, none) ∨
    ((stepUser now m old cache u okb).1 =
        insertOrReplaceAlert cache (m.id, u.user_id) now ∧
     ∀ d, (stepUser now m old cache u okb).2 = some d →
       d.market_id = m.id ∧ d.user_id = u.user_id ∧ d.time = now ∧ d.delivered = okb ∧
       (u.is_pro = false →
         countAlertsToday (insertOrReplaceAlert cache (m.id, u.user_id) now) u.user_id
           (dateOf now) < dailyFreeLimit)) := by
  by_cases hm : marketMatches u.keywords m = true
  · cases hc : check_alert_conditions m old u.threshold with
    | none => exact Or.inl (stepUser_nofire hc)
    | some td =>
      obtain ⟨ty, det⟩ := td
      cases hg : (should_send_alert cache m.id u.user_id now).1 with
      | false => exact Or.inl (stepUser_gate_denied hm hc hg)
      | true =>
        right
        rw [stepUser_granted_eq hm hc hg]
        refine ⟨rfl, ?_⟩
        intro d hd
        by_cases hq : u.is_pro = false ∧ dailyFreeLimit ≤ countAlertsToday
            (insertOrReplaceAlert cache (m.id, u.user_id) now) u.user_id (dateOf now)
        · rw [if_pos hq] at hd
          exact absurd hd (by simp)
        · rw [if_neg hq] at hd
          have hd' : d = ⟨m.id, u.user_id, now, ty, det, okb⟩ := by
            simpa using hd.symm
          subst hd'
          refine ⟨rfl, rfl, rfl, rfl, ?_⟩
          intro hpro
          rcases Nat.lt_or_ge (countAlertsToday
            (insertOrReplaceAlert cache (m.id, u.user_id) now) u.user_id (dateOf now))
            dailyFreeLimit with hlt | hge
          · exact hlt
          · exact absurd ⟨hpro, hge⟩ hq
  · exact Or.inl (stepUser_nomatch (by simpa using hm))

theorem deliveredMids_singleton {d : Delivery} {u : String} {D : Nat} :
    deliveredMids [d] u D =
      if d.user_id = u ∧ dateOf d.time = D ∧ d.delivered = true
      then {d.market_id} else ∅ := by
  by_cases h : d.user_id = u ∧ dateOf d.time = D ∧ d.delivered = true
  · simp [deliveredMids, h]
  · simp [deliveredMids, h]

/-! The free-tier invariant, stepwise: processing one (market, user) pair
preserves key uniqueness, stamps only the current time, and keeps the set
of distinct markets delivered to a given free user on day `D` inside the
day's record set, of size at most `dailyFreeLimit - 1`. -/

theorem stepUser_inv {now : Nat} {m : Market} {old : Option CachedMarketData}
    {cache : AlertCache} {u : UserRow} {okb : Bool} {usr : String} {D : Nat}
    {Dset : Finset String}
    (hu : uniqKeys cache) (ht : ∀ r ∈ cache, r.2 ≤ now)
    (hsub : Dset ⊆ todayMids cache usr D) (hcard : Dset.card ≤ 2)
    (hfree : u.user_id = usr → u.is_pro = false)
    (hday : dateOf now ≤ D) :
    uniqKeys (stepUser now m old cache u okb).1 ∧
    (∀ r ∈ (stepUser now m old cache u okb).1, r ∈ cache ∨ r.2 = now) ∧
    (Dset ∪ deliveredMids (stepUser now m old cache u okb).2.toList usr D)
      ⊆ todayMids (stepUser now m old cache u okb).1 usr D ∧
    (Dset ∪ deliveredMids (stepUser now m old cache u okb).2.toList usr D).card ≤ 2 := by
  rcases stepUser_shape now m old cache u okb with heq | ⟨hc1, hdel⟩
  · rw [heq]
    exact ⟨hu, fun r hr => Or.inl hr,
      by simpa [deliveredMids_nil] using hsub,
      by simpa [deliveredMids_nil] using hcard⟩
  · have hu1 : uniqKeys (stepUser now m old cache u okb).1 := by
      rw [hc1]
      exact uniqKeys_insertOrReplaceAlert _ _ hu
    have hmem1 : ∀ r ∈ (stepUser now m old cache u okb).1, r ∈ cache ∨ r.2 = now := by
      rw [hc1]
      intro r hr
      rcases mem_insertOrReplaceAlert.1 hr with h | ⟨h, -⟩
      · right
        rw [h]
      · exact Or.inl h
    refine ⟨hu1, hmem1, ?_⟩
    rcases Nat.lt_or_ge (dateOf now) D with hlt | hge
    · -- strictly before day D: no day-D records and no day-D deliveries exist
      have hemp : todayMids cache usr D = ∅ := by
        refine todayMids_eq_empty ?_
        intro r hr
        have h2 := dateOf_mono (ht r hr)
        omega
      have hDset : Dset = ∅ := Finset.subset_empty.1 (hemp ▸ hsub)
      have hdm : deliveredMids (stepUser now m old cache u okb).2.toList usr D = ∅ := by
        cases hd2 : (stepUser now m old cache u okb).2 with
        | none => rfl
        | some d =>
          have hdt := (hdel d hd2).2.2.1
          simp only [Option.toList_some]
          refine deliveredMids_eq_empty ?_
          intro d' hd'
          rw [List.mem_singleton] at hd'
          rw [hd', hdt]
          omega
      rw [hDset, hdm]
      simp
    · -- day D itself
      have hD : dateOf now = D := Nat.le_antisymm hday hge
      have hmono : todayMids cache usr D ⊆
          todayMids (stepUser now m old cache u okb).1 usr D := by
        rw [hc1]
        by_cases huid : u.user_id = usr
        · rw [huid, todayMids_insert_same_user hD]
          exact Finset.subset_insert _ _
        · rw [todayMids_insert_other_user huid]
      cases hd2 : (stepUser now m old cache u okb).2 with
      | none =>
        simp only [Option.toList_none, deliveredMids_nil, Finset.union_empty]
        exact ⟨hsub.trans hmono, hcard⟩
      | some d =>
        obtain ⟨hdm, hdu, hdt, hdok, hquota⟩ := hdel d hd2
        simp only [Option.toList_some]
        by_cases hcnt : d.user_id = usr ∧ dateOf d.time = D ∧ d.delivered = true
        · have husr : u.user_id = usr := hdu ▸ hcnt.1
          have hlt3 := hquota (hfree husr)
          have hcardT : (todayMids (stepUser now m old cache u okb).1 usr D).card ≤ 2 := by
            rw [hc1, ← husr, ← hD]
            have hcc := @countAlertsToday_eq_card
              (insertOrReplaceAlert cache (m.id, u.user_id) now) u.user_id (dateOf now)
              (uniqKeys_insertOrReplaceAlert (m.id, u.user_id) now hu)
            rw [hcc] at hlt3
            simp only [dailyFreeLimit] at hlt3
            omega
          have hsubnew : Dset ∪ deliveredMids [d] usr D ⊆
              todayMids (stepUser now m old cache u okb).1 usr D := by
            rw [deliveredMids_singleton, if_pos hcnt]
            refine Finset.union_subset (hsub.trans hmono) ?_
            rw [Finset.singleton_subset_iff, hdm, hc1, ← husr,
              todayMids_insert_same_user hD]
            exact Finset.mem_insert_self _ _
          exact ⟨hsubnew, (Finset.card_le_card hsubnew).trans hcardT⟩
        · rw [deliveredMids_singleton, if_neg hcnt]
          simp only [Finset.union_empty]
          exact ⟨hsub.trans hmono, hcard⟩

theorem processUsers_inv {now : Nat} {m : Market} {old : Option CachedMarketData}
    {ok : String → String → Bool} {cache : AlertCache} {users : List UserRow}
    {usr : String} {D : Nat} {Dset : Finset String}
    (hu : uniqKeys cache) (ht : ∀ r ∈ cache, r.2 ≤ now)
    (hsub : Dset ⊆ todayMids cache usr D) (hcard : Dset.card ≤ 2)
    (hfree : ∀ u ∈ users, u.user_id = usr → u.is_pro = false)
    (hday : dateOf now ≤ D) :
    uniqKeys (processUsers now m old ok cache users).1 ∧
    (∀ r ∈ (processUsers now m old ok cache users).1, r ∈ cache ∨ r.2 = now) ∧
    (Dset ∪ deliveredMids (processUsers now m old ok cache users).2 usr D)
      ⊆ todayMids (processUsers now m old ok cache users).1 usr D ∧
    (Dset ∪ deliveredMids (processUsers now m old ok cache users).2 usr D).card ≤ 2 := by
  induction users generalizing cache Dset with
  | nil =>
    exact ⟨hu, fun r hr => Or.inl hr,
      by simpa [processUsers, deliveredMids_nil] using hsub,
      by simpa [processUsers, deliveredMids_nil] using hcard⟩
  | cons u rest ih =>
    have hstep := @stepUser_inv now m old cache u (ok m.id u.user_id) usr D Dset
      hu ht hsub hcard (hfree u (List.mem_cons_self u rest)) hday
    obtain ⟨hu1, hmem1, hsub1, hcard1⟩ := hstep
    have ht1 : ∀ r ∈ (stepUser now m old cache u (ok m.id u.user_id)).1, r.2 ≤ now := by
      intro r hr
      rcases hmem1 r hr with h | h
      · exact ht r h
      · omega
    have hrest := ih hu1 ht1 hsub1 hcard1
      (fun v hv => hfree v (List.mem_cons_of_mem _ hv))
    obtain ⟨hu2, hmem2, hsub2, hcard2⟩ := hrest
    have heq : processUsers now m old ok cache (u :: rest) =
        ((processUsers now m old ok
            (stepUser now m old cache u (ok m.id u.user_id)).1 rest).1,
         (stepUser now m old cache u (ok m.id u.user_id)).2.toList ++
           (processUsers now m old ok
             (stepUser now m old cache u (ok m.id u.user_id)).1 rest).2) := rfl
    rw [heq]
    refine ⟨hu2, ?_, ?_, ?_⟩
    · intro r hr
      rcases hmem2 r hr with h | h
      · rcases hmem1 r h with h' | h'
        · exact Or.inl h'
        · exact Or.inr h'
      · exact Or.inr h
    · rw [deliveredMids_append, ← Finset.union_assoc]
      exact hsub2
    · rw [deliveredMids_append, ← Finset.union_assoc]
      exact hcard2

theorem processMarket_inv {now : Nat} {users : List UserRow}
    {ok : String → String → Bool} {st : BotState} {m : Market}
    {usr : String} {D : Nat} {Dset : Finset String}
    (hu : uniqKeys st.alert_cache) (ht : ∀ r ∈ st.alert_cache, r.2 ≤ now)
    (hsub : Dset ⊆ todayMids st.alert_cache usr D) (hcard : Dset.card ≤ 2)
    (hfree : ∀ u ∈ users, u.user_id = usr → u.is_pro = false)
    (hday : dateOf now ≤ D) :
    uniqKeys (processMarket now users ok st m).1.alert_cache ∧
    (∀ r ∈ (processMarket now users ok st m).1.alert_cache,
      r ∈ st.alert_cache ∨ r.2 = now) ∧
    (Dset ∪ deliveredMids (processMarket now users ok st m).2 usr D)
      ⊆ todayMids (processMarket now users ok st m).1.alert_cache usr D ∧
    (Dset ∪ deliveredMids (processMarket now users ok st m).2 usr D).card ≤ 2 :=
  processUsers_inv hu ht hsub hcard hfree hday

theorem processMarkets_inv {now : Nat} {users : List UserRow}
    {ok : String → String → Bool} {st : BotState} {markets : List Market}
    {usr : String} {D : Nat} {Dset : Finset String}
    (hu : uniqKeys st.alert_cache) (ht : ∀ r ∈ st.alert_cache, r.2 ≤ now)
    (hsub : Dset ⊆ todayMids st.alert_cache usr D) (hcard : Dset.card ≤ 2)
    (hfree : ∀ u ∈ users, u.user_id = usr → u.is_pro = false)
    (hday : dateOf now ≤ D) :
    uniqKeys (processMarkets now users ok st markets).1.alert_cache ∧
    (∀ r ∈ (processMarkets now users ok st markets).1.alert_cache,
      r ∈ st.alert_cache ∨ r.2 = now) ∧
    (Dset ∪ deliveredMids (processMarkets now users ok st markets).2 usr D)
      ⊆ todayMids (processMarkets now users ok st markets).1.alert_cache usr D ∧
    (Dset ∪ deliveredMids (processMarkets now users ok st markets).2 usr D).card ≤ 2 := by
  induction markets generalizing st Dset with
  | nil =>
    exact ⟨hu, fun r hr => Or.inl hr,
      by simpa [processMarkets, deliveredMids_nil] using hsub,
      by simpa [processMarkets, deliveredMids_nil] using hcard⟩
  | cons m rest ih =>
    obtain ⟨hu1, hmem1, hsub1, hcard1⟩ := @processMarket_inv now users ok st m usr D Dset
      hu ht hsub hcard hfree hday
    have ht1 : ∀ r ∈ (processMarket now users ok st m).1.alert_cache, r.2 ≤ now := by
      intro r hr
      rcases hmem1 r hr with h | h
      · exact ht r h
      · omega
    obtain ⟨hu2, hmem2, hsub2, hcard2⟩ := ih hu1 ht1 hsub1 hcard1
    have heq : processMarkets now users ok st (m :: rest) =
        ((processMarkets now users ok (processMarket now users ok st m).1 rest).1,
         (processMarket now users ok st m).2 ++
           (processMarkets now users ok (processMarket now users ok st m).1 rest).2) := rfl
    rw [heq]
    refine ⟨hu2, ?_, ?_, ?_⟩
    · intro r hr
      rcases hmem2 r hr with h | h
      · rcases hmem1 r h with h' | h'
        · exact Or.inl h'
        · exact Or.inr h'
      · exact Or.inr h
    · rw [deliveredMids_append, ← Finset.union_assoc]
      exact hsub2
    · rw [deliveredMids_append, ← Finset.union_assoc]
      exact hcard2

theorem poll_markets_inv {now : Nat} {st : BotState} {markets : List Market}
    {users : List UserRow} {ok : String → String → Bool}
    {usr : String} {D : Nat} {Dset : Finset String}
    (hu : uniqKeys st.alert_cache) (ht : ∀ r ∈ st.alert_cache, r.2 ≤ now)
    (hsub : Dset ⊆ todayMids st.alert_cache usr D) (hcard : Dset.card ≤ 2)
    (hfree : ∀ u ∈ users, u.user_id = usr → u.is_pro = false)
    (hday : dateOf now ≤ D) :
    uniqKeys (poll_markets now st markets users ok).1.alert_cache ∧
    (∀ r ∈ (poll_markets now st markets users ok).1.alert_cache,
      r ∈ st.alert_cache ∨ r.2 = now) ∧
    (Dset ∪ deliveredMids (poll_markets now st markets users ok).2 usr D)
      ⊆ todayMids (poll_markets now st markets users ok).1.alert_cache usr D ∧
    (Dset ∪ deliveredMids (poll_markets now st markets users ok).2 usr D).card ≤ 2 := by
  unfold poll_markets
  by_cases hm : markets.isEmpty
  · rw [if_pos hm]
    exact ⟨hu, fun r hr => Or.inl hr,
      by simpa [deliveredMids_nil] using hsub,
      by simpa [deliveredMids_nil] using hcard⟩
  · rw [if_neg hm]
    by_cases hus : users.isEmpty
    · rw [if_pos hus]
      exact ⟨hu, fun r hr => Or.inl hr,
        by simpa [deliveredMids_nil] using hsub,
        by simpa [deliveredMids_nil] using hcard⟩
    · rw [if_neg hus]
      exact processMarkets_inv hu ht hsub hcard hfree hday

/-! Every delivery of a cycle is stamped with that cycle's time. -/

theorem stepUser_delivery_time {now : Nat} {m : Market} {old : Option CachedMarketData}
    {cache : AlertCache} {u : UserRow} {okb : Bool} {d : Delivery}
    (hd : (stepUser now m old cache u okb).2 = some d) : d.time = now := by
  rcases stepUser_shape now m old cache u okb with heq | ⟨-, hdel⟩
  · rw [heq] at hd
    cases hd
  · exact (hdel d hd).2.2.1

theorem processUsers_delivery_time {now : Nat} {m : Market}
    {old : Option CachedMarketData} {ok : String → String → Bool}
    {cache : AlertCache} {users : List UserRow} :
    ∀ d ∈ (processUsers now m old ok cache users).2, d.time = now := by
  induction users generalizing cache with
  | nil => simp [processUsers]
  | cons u rest ih =>
    intro d hd
    have heq : (processUsers now m old ok cache (u :: rest)).2 =
        (stepUser now m old cache u (ok m.id u.user_id)).2.toList ++
          (processUsers now m old ok
            (stepUser now m old cache u (ok m.id u.user_id)).1 rest).2 := rfl
    rw [heq] at hd
    rcases List.mem_append.1 hd with h | h
    · cases hd2 : (stepUser now m old cache u (ok m.id u.user_id)).2 with
      | none =>
        rw [hd2] at h
        cases h
      | some d' =>
        rw [hd2] at h
        have hdd : d = d' := by simpa using h
        rw [hdd]
        exact stepUser_delivery_time hd2
    · exact ih _ h

theorem processMarkets_delivery_time {now : Nat} {users : List UserRow}
    {ok : String → String → Bool} {st : BotState} {markets : List Market} :
    ∀ d ∈ (processMarkets now users ok st markets).2, d.time = now := by
  induction markets generalizing st with
  | nil => simp [processMarkets]
  | cons m rest ih =>
    intro d hd
    have heq : (processMarkets now users ok st (m :: rest)).2 =
        (processMarket now users ok st m).2 ++
          (processMarkets now users ok (processMarket now users ok st m).1 rest).2 := rfl
    rw [heq] at hd
    rcases List.mem_append.1 hd with h | h
    · exact processUsers_delivery_time d h
    · exact ih _ h

theorem poll_markets_delivery_time {now : Nat} {st : BotState} {markets : List Market}
    {users : List UserRow} {ok : String → String → Bool} :
    ∀ d ∈ (poll_markets now st markets users ok).2, d.time = now := by
  unfold poll_markets
  by_cases hm : markets.isEmpty
  · simp [hm]
  · rw [if_neg hm]
    by_cases hus : users.isEmpty
    · simp [hus]
    · rw [if_neg hus]
      exact processMarkets_delivery_time

theorem runCycles_delivery_time {st : BotState} {cycles : List CycleInput} :
    ∀ d ∈ (runCycles st cycles).2, ∃ c ∈ cycles, d.time = c.now := by
  induction cycles generalizing st with
  | nil => simp [runCycles]
  | cons c rest ih =>
    intro d hd
    have heq : (runCycles st (c :: rest)).2 =
        (poll_markets c.now st c.markets c.users c.ok).2 ++
          (runCycles (poll_markets c.now st c.markets c.users c.ok).1 rest).2 := rfl
    rw [heq] at hd
    rcases List.mem_append.1 hd with h | h
    · exact ⟨c, List.mem_cons_self c rest, poll_markets_delivery_time d h⟩
    · obtain ⟨c', hc', hdt⟩ := ih _ h
      exact ⟨c', List.mem_cons_of_mem c hc', hdt⟩

/-- Main fold of the free-tier invariant over a sequence of cycles. -/
theorem runCycles_inv {st : BotState} {cycles : List CycleInput}
    {usr : String} {D : Nat} {Dset : Finset String}
    (hu : uniqKeys st.alert_cache)
    (ht : ∀ r ∈ st.alert_cache, ∀ c ∈ cycles, r.2 ≤ c.now)
    (hmono : cycles.Pairwise (fun a b => a.now ≤ b.now))
    (hfree : ∀ c ∈ cycles, ∀ u ∈ c.users, u.user_id = usr → u.is_pro = false)
    (hsub : Dset ⊆ todayMids st.alert_cache usr D) (hcard : Dset.card ≤ 2) :
    (Dset ∪ deliveredMids (runCycles st cycles).2 usr D).card ≤ 2 := by
  induction cycles generalizing st Dset with
  | nil => simpa [runCycles, deliveredMids_nil] using hcard
  | cons c rest ih =>
    have heq : (runCycles st (c :: rest)).2 =
        (poll_markets c.now st c.markets c.users c.ok).2 ++
          (runCycles (poll_markets c.now st c.markets c.users c.ok).1 rest).2 := rfl
    rcases le_or_lt (dateOf c.now) D with hday | hpast
    · obtain ⟨hu1, hmem1, hsub1, hcard1⟩ := poll_markets_inv
        hu (fun r hr => ht r hr c (List.mem_cons_self c rest))
        hsub hcard (hfree c (List.mem_cons_self c rest)) hday
      have ht1 : ∀ r ∈ (poll_markets c.now st c.markets c.users c.ok).1.alert_cache,
          ∀ c' ∈ rest, r.2 ≤ c'.now := by
        intro r hr c' hc'
        rcases hmem1 r hr with h | h
        · exact ht r h c' (List.mem_cons_of_mem c hc')
        · rw [h]
          exact (List.pairwise_cons.1 hmono).1 c' hc'
      have hrec := ih hu1 ht1 (List.pairwise_cons.1 hmono).2
        (fun c' hc' => hfree c' (List.mem_cons_of_mem c hc')) hsub1 hcard1
      rw [heq, deliveredMids_append, ← Finset.union_assoc]
      exact hrec
    · have hall : ∀ d ∈ (runCycles st (c :: rest)).2, dateOf d.time ≠ D := by
        intro d hd
        obtain ⟨c', hc', hdt⟩ := runCycles_delivery_time d hd
        have hle : c.now ≤ c'.now := by
          rcases List.mem_cons.1 hc' with h | h
          · rw [h]
          · exact (List.pairwise_cons.1 hmono).1 c' h
        have := dateOf_mono hle
        rw [hdt]
        omega
      rw [deliveredMids_eq_empty hall, Finset.union_empty]
      exact hcard

/-! Lemmas about the `market_cache` table. -/

theorem get_cached_update_self (mc : MarketCache) (m : Market) :
    get_cached_market_data (update_market_cache mc m) m.id =
      some ⟨m.yes_price, m.volume_24h⟩ := by
  simp [get_cached_market_data, update_market_cache, List.find?_cons]

theorem get_cached_update_ne (mc : MarketCache) (m : Market) {mid : String}
    (h : mid ≠ m.id) :
    get_cached_market_data (update_market_cache mc m) mid =
      get_cached_market_data mc mid := by
  simp only [get_cached_market_data, update_market_cache]
  rw [List.find?_cons_of_neg _ (by simp [Ne.symm h]), List.find?_filter]
  have hp : (fun (a : String × CachedMarketData) =>
      decide ((decide (a.1 ≠ m.id)) = true ∧ (decide (a.1 = mid)) = true)) =
      (fun (a : String × CachedMarketData) => decide (a.1 = mid)) := by
    funext a
    by_cases ha : a.1 = mid
    · simp [ha, h]
    · simp [ha]
  rw [hp]

theorem processMarkets_market_cache_preserve {now : Nat} {users : List UserRow}
    {ok : String → String → Bool} {st : BotState} {markets : List Market} {mid : String}
    (h : ∀ m ∈ markets, m.id ≠ mid) :
    get_cached_market_data (processMarkets now users ok st markets).1.market_cache mid =
      get_cached_market_data st.market_cache mid := by
  induction markets generalizing st with
  | nil => rfl
  | cons m rest ih =>
    have heq : (processMarkets now users ok st (m :: rest)).1 =
        (processMarkets now users ok (processMarket now users ok st m).1 rest).1 := rfl
    rw [heq, ih (fun m' hm' => h m' (List.mem_cons_of_mem m hm'))]
    exact get_cached_update_ne _ _ (Ne.symm (h m (List.mem_cons_self m rest)))

theorem processMarkets_market_cache {now : Nat} {users : List UserRow}
    {ok : String → String → Bool} {st : BotState} {markets : List Market}
    (hnd : (markets.map Market.id).Nodup) :
    ∀ m ∈ markets,
      get_cached_market_data (processMarkets now users ok st markets).1.market_cache m.id =
        some ⟨m.yes_price, m.volume_24h⟩ := by
  induction markets generalizing st with
  | nil =>
    intro m hm
    cases hm
  | cons m0 rest ih =>
    intro m hm
    rcases List.mem_cons.1 hm with hm0 | hm'
    · have hne : ∀ m' ∈ rest, m'.id ≠ m.id := by
        intro m' hm' heq
        have hhd := (List.nodup_cons.1 hnd).1
        have heq0 : m'.id = m0.id := by rw [heq, hm0]
        exact hhd (heq0 ▸ List.mem_map_of_mem Market.id hm')
      have heq1 : (processMarkets now users ok st (m0 :: rest)).1 =
          (processMarkets now users ok (processMarket now users ok st m0).1 rest).1 := rfl
      rw [heq1, processMarkets_market_cache_preserve hne, hm0]
      exact get_cached_update_self _ _
    · exact ih (List.nodup_cons.1 hnd).2 m hm'

/-! The delivery-outcome oracle influences only the `delivered` flags:
state evolution and all alert decisions are identical for any outcomes. -/

theorem stepUser_ok_independent (now : Nat) (m : Market) (old : Option CachedMarketData)
    (cache : AlertCache) (u : UserRow) (o1 o2 : Bool) :
    (stepUser now m old cache u o1).1 = (stepUser now m old cache u o2).1 ∧
    (stepUser now m old cache u o1).2.toList.map stripDelivered =
      (stepUser now m old cache u o2).2.toList.map stripDelivered := by
  by_cases hm : marketMatches u.keywords m = true
  · cases hc : check_alert_conditions m old u.threshold with
    | none => rw [stepUser_nofire hc, stepUser_nofire hc]; exact ⟨rfl, rfl⟩
    | some td =>
      obtain ⟨ty, det⟩ := td
      cases hg : (should_send_alert cache m.id u.user_id now).1 with
      | false =>
        rw [stepUser_gate_denied hm hc hg, stepUser_gate_denied hm hc hg]
        exact ⟨rfl, rfl⟩
      | true =>
        rw [stepUser_granted_eq hm hc hg, stepUser_granted_eq hm hc hg]
        refine ⟨rfl, ?_⟩
        by_cases hq : u.is_pro = false ∧ dailyFreeLimit ≤ countAlertsToday
            (insertOrReplaceAlert cache (m.id, u.user_id) now) u.user_id (dateOf now)
        · simp only [if_pos hq]
        · simp only [if_neg hq]
          simp [stripDelivered]
  · rw [stepUser_nomatch (by simpa using hm), stepUser_nomatch (by simpa using hm)]
    exact ⟨rfl, rfl⟩

theorem processUsers_ok_independent (now : Nat) (m : Market)
    (old : Option CachedMarketData) (f g : String → String → Bool)
    (cache : AlertCache) (users : List UserRow) :
    (processUsers now m old f cache users).1 = (processUsers now m old g cache users).1 ∧
    (processUsers now m old f cache users).2.map stripDelivered =
      (processUsers now m old g cache users).2.map stripDelivered := by
  induction users generalizing cache with
  | nil => exact ⟨rfl, rfl⟩
  | cons u rest ih =>
    obtain ⟨h1, h2⟩ := stepUser_ok_independent now m old cache u
      (f m.id u.user_id) (g m.id u.user_id)
    have heqf : processUsers now m old f cache (u :: rest) =
        ((processUsers now m old f (stepUser now m old cache u (f m.id u.user_id)).1 rest).1,
         (stepUser now m old cache u (f m.id u.user_id)).2.toList ++
           (processUsers now m old f
             (stepUser now m old cache u (f m.id u.user_id)).1 rest).2) := rfl
    have heqg : processUsers now m old g cache (u :: rest) =
        ((processUsers now m old g (stepUser now m old cache u (g m.id u.user_id)).1 rest).1,
         (stepUser now m old cache u (g m.id u.user_id)).2.toList ++
           (processUsers now m old g
             (stepUser now m old cache u (g m.id u.user_id)).1 rest).2) := rfl
    obtain ⟨ih1, ih2⟩ := ih (stepUser now m old cache u (f m.id u.user_id)).1
    rw [heqf, heqg, ← h1]
    exact ⟨ih1, by rw [List.map_append, List.map_append, h2, ih2]⟩

theorem processMarkets_ok_independent (now : Nat) (users : List UserRow)
    (f g : String → String → Bool) (st : BotState) (markets : List Market) :
    (processMarkets now users f st markets).1.alert_cache =
      (processMarkets now users g st markets).1.alert_cache ∧
    (processMarkets now users f st markets).1.market_cache =
      (processMarkets now users g st markets).1.market_cache ∧
    (processMarkets now users f st markets).2.map stripDelivered =
      (processMarkets now users g st markets).2.map stripDelivered := by
  induction markets generalizing st with
  | nil => exact ⟨rfl, rfl, rfl⟩
  | cons m rest ih =>
    obtain ⟨h1, h2⟩ := processUsers_ok_independent now m
      (get_cached_market_data st.market_cache m.id) f g st.alert_cache users
    have hmf : processMarket now users f st m =
        (⟨(processUsers now m (get_cached_market_data st.market_cache m.id) f
              st.alert_cache users).1,
          update_market_cache st.market_cache m⟩,
         (processUsers now m (get_cached_market_data st.market_cache m.id) f
           st.alert_cache users).2) := rfl
    have hmg : processMarket now users g st m =
        (⟨(processUsers now m (get_cached_market_data st.market_cache m.id) g
              st.alert_cache users).1,
          update_market_cache st.market_cache m⟩,
         (processUsers now m (get_cached_market_data st.market_cache m.id) g
           st.alert_cache users).2) := rfl
    have hsteq : (processMarket now users f st m).1 = (processMarket now users g st m).1 := by
      rw [hmf, hmg, h1]
    obtain ⟨ih1, ih2, ih3⟩ := ih (processMarket now users f st m).1
    have heqf : processMarkets now users f st (m :: rest) =
        ((processMarkets now users f (processMarket now users f st m).1 rest).1,
         (processMarket now users f st m).2 ++
           (processMarkets now users f (processMarket now users f st m).1 rest).2) := rfl
    have heqg : processMarkets now users g st (m :: rest) =
        ((processMarkets now users g (processMarket now users g st m).1 rest).1,
         (processMarket now users g st m).2 ++
           (processMarkets now users g (processMarket now users g st m).1 rest).2) := rfl
    rw [heqf, heqg, ← hsteq]
    refine ⟨ih1, ih2, ?_⟩
    rw [List.map_append, List.map_append, ih3]
    have hd2 : (processMarket now users f st m).2.map stripDelivered =
        (processMarket now users g st m).2.map stripDelivered := by
      rw [hmf, hmg]
      exact h2
    rw [hd2]

theorem poll_markets_ok_independent (now : Nat) (st : BotState) (markets : List Market)
    (users : List UserRow) (f g : String → String → Bool) :
    (poll_markets now st markets users f).1.alert_cache =
      (poll_markets now st markets users g).1.alert_cache ∧
    (poll_markets now st markets users f).1.market_cache =
      (poll_markets now st markets users g).1.market_cache ∧
    (poll_markets now st markets users f).2.map stripDelivered =
      (poll_markets now st markets users g).2.map stripDelivered := by
  unfold poll_markets
  by_cases hm : markets.isEmpty
  · rw [if_pos hm, if_pos hm]
    exact ⟨rfl, rfl, rfl⟩
  · rw [if_neg hm, if_neg hm]
    by_cases hus : users.isEmpty
    · rw [if_pos hus, if_pos hus]
      exact ⟨rfl, rfl, rfl⟩
    · rw [if_neg hus, if_neg hus]
      exact processMarkets_ok_independent now users f g st markets

/-! Traces of calls to the cooldown gate, for the cross-call invariant. -/

theorem runGateCache_append (cache : AlertCache) (l1 l2 : List GateCall) :
    runGateCache cache (l1 ++ l2) = runGateCache (runGateCache cache l1) l2 := by
  induction l1 generalizing cache with
  | nil => rfl
  | cons c rest ih =>
    obtain ⟨k, t⟩ := c
    exact ih _

/-- The stored timestamp for a key never decreases along a run. -/
theorem lookupAlert_runGateCache_mono {cache : AlertCache} {calls : List GateCall}
    {k : AlertKey} {t0 : Nat} (h : lookupAlert cache k = some t0) :
    ∃ t1, lookupAlert (runGateCache cache calls) k = some t1 ∧ t0 ≤ t1 := by
  induction calls generalizing cache t0 with
  | nil => exact ⟨t0, h, Nat.le_refl _⟩
  | cons c rest ih =>
    obtain ⟨k', t⟩ := c
    show ∃ t1,
      lookupAlert (runGateCache (should_send_alert cache k'.1 k'.2 t).2 rest) k = some t1 ∧
        t0 ≤ t1
    cases hg : (should_send_alert cache k'.1 k'.2 t).1 with
    | false =>
      have h2 : (should_send_alert cache k'.1 k'.2 t).2 = cache := by
        rw [should_send_alert_snd, hg]
        simp
      rw [h2]
      exact ih h
    | true =>
      have h2 : (should_send_alert cache k'.1 k'.2 t).2 =
          insertOrReplaceAlert cache k' t := by
        rw [should_send_alert_snd, hg]
        simp [Prod.mk.eta]
      rw [h2]
      by_cases hk : k' = k
      · have hcond := should_send_alert_fst_true.1 hg t0 (by rw [Prod.mk.eta, hk]; exact h)
        have hself : lookupAlert (insertOrReplaceAlert cache k' t) k = some t := by
          rw [← hk]
          exact lookupAlert_insert_self cache k' t
        obtain ⟨t1, h3, h4⟩ := ih hself
        exact ⟨t1, h3, by omega⟩
      · have hne : lookupAlert (insertOrReplaceAlert cache k' t) k = some t0 := by
          rw [lookupAlert_insert_ne cache t (fun hke => hk hke.symm)]
          exact h
        exact ih hne

theorem lastGrantTime_mem {k : AlertKey} {tr : List (GateCall × Bool)} {t : Nat}
    (h : lastGrantTime k tr = some t) : ((k, t), true) ∈ tr := by
  induction tr with
  | nil => cases h
  | cons e rest ih =>
    rw [lastGrantTime] at h
    cases hLG : lastGrantTime k rest with
    | some t' =>
      rw [hLG] at h
      have ht' : t' = t := by simpa using h
      exact List.mem_cons_of_mem e (ih (ht' ▸ hLG))
    | none =>
      rw [hLG] at h
      by_cases hc : e.1.1 = k ∧ e.2 = true
      · rw [if_pos hc] at h
        have he : e = ((k, t), true) := by
          obtain ⟨⟨ek, et⟩, eb⟩ := e
          obtain ⟨h1, h2⟩ := hc
          simp only at h1 h2
          simp only [Option.some.injEq] at h
          simp_all
        rw [← he]
        exact List.mem_cons_self e rest
      · rw [if_neg hc] at h
        cases h

/-- When no call for the key was granted, the stored entry is untouched. -/
theorem lookupAlert_runGateCache_of_none {cache : AlertCache} {calls : List GateCall}
    {k : AlertKey} (h : lastGrantTime k (runGate cache calls) = none) :
    lookupAlert (runGateCache cache calls) k = lookupAlert cache k := by
  induction calls generalizing cache with
  | nil => rfl
  | cons c rest ih =>
    obtain ⟨k', t⟩ := c
    rw [show runGate cache ((k', t) :: rest) =
        ((k', t), (should_send_alert cache k'.1 k'.2 t).1) ::
          runGate (should_send_alert cache k'.1 k'.2 t).2 rest from rfl,
      lastGrantTime] at h
    show lookupAlert (runGateCache (should_send_alert cache k'.1 k'.2 t).2 rest) k =
      lookupAlert cache k
    cases hLG : lastGrantTime k (runGate (should_send_alert cache k'.1 k'.2 t).2 rest) with
    | some t' =>
      rw [hLG] at h
      cases h
    | none =>
      rw [hLG] at h
      rw [ih hLG]
      cases hg : (should_send_alert cache k'.1 k'.2 t).1 with
      | false =>
        have h2 : (should_send_alert cache k'.1 k'.2 t).2 = cache := by
          rw [should_send_alert_snd, hg]
          simp
        rw [h2]
      | true =>
        have h2 : (should_send_alert cache k'.1 k'.2 t).2 =
            insertOrReplaceAlert cache k' t := by
          rw [should_send_alert_snd, hg]
          simp [Prod.mk.eta]
        rw [hg] at h
        have hkne : ¬ (k' = k) := by
          intro hk
          rw [if_pos ⟨hk, rfl⟩] at h
          cases h
        rw [h2]
        exact lookupAlert_insert_ne cache t (fun hke => hkne hke.symm)

/-- The stored entry after a run is the time of the last granted call. -/
theorem lookupAlert_runGateCache_of_grant {cache : AlertCache} {calls : List GateCall}
    {k : AlertKey} {tg : Nat} (h : lastGrantTime k (runGate cache calls) = some tg) :
    lookupAlert (runGateCache cache calls) k = some tg := by
  induction calls generalizing cache with
  | nil => cases h
  | cons c rest ih =>
    obtain ⟨k', t⟩ := c
    rw [show runGate cache ((k', t) :: rest) =
        ((k', t), (should_send_alert cache k'.1 k'.2 t).1) ::
          runGate (should_send_alert cache k'.1 k'.2 t).2 rest from rfl,
      lastGrantTime] at h
    show lookupAlert (runGateCache (should_send_alert cache k'.1 k'.2 t).2 rest) k = some tg
    cases hLG : lastGrantTime k (runGate (should_send_alert cache k'.1 k'.2 t).2 rest) with
    | some t' =>
      rw [hLG] at h
      have ht' : t' = tg := by simpa using h
      exact ih (ht' ▸ hLG)
    | none =>
      rw [hLG] at h
      by_cases hc : k' = k ∧ (should_send_alert cache k'.1 k'.2 t).1 = true
      · have hteq : t = tg := by
          rw [if_pos hc] at h
          simpa using h
        have h2 : (should_send_alert cache k'.1 k'.2 t).2 =
            insertOrReplaceAlert cache k' t := by
          rw [should_send_alert_snd, hc.2]
          simp [Prod.mk.eta]
        rw [lookupAlert_runGateCache_of_none hLG, h2, ← hc.1, ← hteq]
        exact lookupAlert_insert_self cache k' t
      · rw [if_neg hc] at h
        cases h

/-! Claim theorems. -/

/-- Claim C5: cooldown-gate invariant across any call sequence from the
fresh table. Part 1: two granted calls for the same key, the second
occurring later in the sequence, are at least the cooldown window (30
minutes) apart — in particular, a second call within the window of a
granted one is denied. Part 2: a call whose time is at least the window
after every earlier granted call for the key is granted. -/
theorem claim_C5_cooldown_window_invariant (k : AlertKey) :
    (∀ l1 t1 l2 t2,
      (should_send_alert (runGateCache [] l1) k.1 k.2 t1).1 = true →
      (should_send_alert (runGateCache [] (l1 ++ (k, t1) :: l2)) k.1 k.2 t2).1 = true →
      t1 + cooldownMinutes ≤ t2) ∧
    (∀ l1 t,
      (∀ t0, ((k, t0), true) ∈ runGate [] l1 → t0 + cooldownMinutes ≤ t) →
      (should_send_alert (runGateCache [] l1) k.1 k.2 t).1 = true) := by
  constructor
  · intro l1 t1 l2 t2 hg1 hg2
    have hsplit : runGateCache [] (l1 ++ (k, t1) :: l2) =
        runGateCache (should_send_alert (runGateCache [] l1) k.1 k.2 t1).2 l2 := by
      rw [runGateCache_append]
      rfl
    have hstore : lookupAlert (should_send_alert (runGateCache [] l1) k.1 k.2 t1).2 k
        = some t1 := by
      have h2 : (should_send_alert (runGateCache [] l1) k.1 k.2 t1).2 =
          insertOrReplaceAlert (runGateCache [] l1) k t1 := by
        rw [should_send_alert_snd, hg1]
        simp [Prod.mk.eta]
      rw [h2]
      exact lookupAlert_insert_self _ _ _
    obtain ⟨t', hl', hle⟩ := @lookupAlert_runGateCache_mono _ l2 k t1 hstore
    have hcond := should_send_alert_fst_true.1 hg2 t'
      (by rw [Prod.mk.eta, hsplit]; exact hl')
    omega
  · intro l1 t hprev
    rw [should_send_alert_fst_true]
    intro last hl
    rw [Prod.mk.eta] at hl
    cases hLG : lastGrantTime k (runGate [] l1) with
    | none =>
      rw [lookupAlert_runGateCache_of_none hLG] at hl
      simp [lookupAlert] at hl
    | some t0 =>
      rw [lookupAlert_runGateCache_of_grant hLG] at hl
      have ht0 : t0 = last := by simpa using hl
      exact ht0 ▸ hprev t0 (lastGrantTime_mem hLG)

/-- Claim C5 (witness): the invariant applied to the concrete call
sequence for the pair ("m", "u"): calls at minutes 0 (granted), 29
(denied), 31 (granted), and a fourth call at 61 which is granted. -/
theorem claim_C5_cooldown_window_invariant_witness :
    ((0 : Nat) + cooldownMinutes ≤ 31) ∧
    (should_send_alert
      (runGateCache [] [(("m", "u"), 0), (("m", "u"), 29), (("m", "u"), 31)])
      "m" "u" 61).1 = true := by
  constructor
  · exact (claim_C5_cooldown_window_invariant ("m", "u")).1 [] 0 [(("m", "u"), 29)] 31
      (by with_unfolding_all decide) (by with_unfolding_all decide)
  · refine (claim_C5_cooldown_window_invariant ("m", "u")).2
      [(("m", "u"), 0), (("m", "u"), 29), (("m", "u"), 31)] 61 ?_
    intro t0 h0
    have hrg : runGate ([] : AlertCache)
        [(("m", "u"), 0), (("m", "u"), 29), (("m", "u"), 31)] =
        [((("m", "u"), 0), true), ((("m", "u"), 29), false), ((("m", "u"), 31), true)] := by
      with_unfolding_all decide
    rw [hrg] at h0
    simp only [List.mem_cons, List.not_mem_nil, or_false, Prod.mk.injEq] at h0
    simp only [cooldownMinutes]
    rcases h0 with ⟨⟨-, h⟩, -⟩ | ⟨⟨-, -⟩, h⟩ | ⟨⟨-, h⟩, -⟩
    · omega
    · cases h
    · omega

/-- Claim C6: single-call contract of the cooldown gate: it returns true
and overwrites the stored timestamp for the pair with `now` exactly when
no record exists or at least the cooldown window has elapsed since the
stored timestamp; otherwise it returns false and leaves the store
unchanged. -/
theorem claim_C6_gate_single_call (cache : AlertCache) (mid uid : String) (now : Nat) :
    ((∀ last, lookupAlert cache (mid, uid) = some last → last + cooldownMinutes ≤ now) →
      should_send_alert cache mid uid now =
        (true, insertOrReplaceAlert cache (mid, uid) now) ∧
      lookupAlert (should_send_alert cache mid uid now).2 (mid, uid) = some now) ∧
    (∀ last, lookupAlert cache (mid, uid) = some last → now < last + cooldownMinutes →
      should_send_alert cache mid uid now = (false, cache)) := by
  constructor
  · intro h
    have heq := should_send_alert_granted h
    refine ⟨heq, ?_⟩
    rw [heq]
    exact lookupAlert_insert_self _ _ _
  · intro last hl hlt
    exact should_send_alert_denied hl hlt

/-- Claim C6 (witness): the contract evaluated on a store holding a record
at minute 10: a call at 40 is granted and re-stamps, a call at 39 is
denied and leaves the store unchanged. -/
theorem claim_C6_gate_single_call_witness :
    (should_send_alert oneRecordCache "m" "u" 40 =
        (true, insertOrReplaceAlert oneRecordCache ("m", "u") 40) ∧
      lookupAlert (should_send_alert oneRecordCache "m" "u" 40).2 ("m", "u") = some 40) ∧
    should_send_alert oneRecordCache "m" "u" 39 = (false, oneRecordCache) :=
  ⟨(claim_C6_gate_single_call oneRecordCache "m" "u" 40).1 (by with_unfolding_all decide),
   (claim_C6_gate_single_call oneRecordCache "m" "u" 39).2 10
     (by with_unfolding_all decide) (by with_unfolding_all decide)⟩

/-- Claim C7: when both Rule A (absolute price change at least the
threshold) and Rule B (volume change above 200 percent and volume above
5000) hold, the returned classification is price_shift: Rule A is checked
first. -/
theorem claim_C7_rule_precedence (m : Market) (old : CachedMarketData) (threshold : ℚ)
    (hA : |priceChangePct m old| ≥ threshold)
    (hB : volumeChangePct m old > 200 ∧ m.volume_24h > 5000) :
    check_alert_conditions m (some old) threshold =
      some (.price_shift,
        ⟨old.last_price * 100, m.yes_price * 100,
         roundTo1 (priceChangePct m old), roundTo1 (volumeChangePct m old)⟩) := by
  have hkeep : 200 < volumeChangePct m old := hB.1
  simp only [check_alert_conditions]
  rw [if_pos hA]

/-- Claim C7 (witness): both rules hold for a 0.40 → 0.48 move with volume
1000 → 5500; the classification is price_shift. -/
theorem claim_C7_rule_precedence_witness :
    check_alert_conditions bothRulesMarket (some priorData) 5 =
      some (.price_shift,
        ⟨priorData.last_price * 100, bothRulesMarket.yes_price * 100,
         roundTo1 (priceChangePct bothRulesMarket priorData),
         roundTo1 (volumeChangePct bothRulesMarket priorData)⟩) :=
  claim_C7_rule_precedence bothRulesMarket priorData 5
    (by with_unfolding_all decide) (by with_unfolding_all decide)

/-- Claim C9: the matching predicate holds iff the keyword set is empty,
or some keyword is a case-insensitive substring of the question text, or
some keyword equals the category tag exactly; keywords are stored
lowercased by the subscribe command, hence the hypothesis. The predicate
is a pure function with no access to any store. -/
theorem claim_C9_matching_predicate (keywords : List (List Char)) (m : Market)
    (hlow : ∀ kw ∈ keywords, lowerChars kw = kw) :
    marketMatches keywords m = true ↔
      keywords = [] ∨ ∃ kw ∈ keywords,
        occursIn (lowerChars kw) (lowerChars m.question) = true ∨ kw = m.category := by
  unfold marketMatches
  rw [Bool.or_eq_true, List.any_eq_true]
  simp only [Bool.or_eq_true, beq_iff_eq, List.isEmpty_iff]
  constructor
  · rintro (h | ⟨kw, hkw, h | h⟩)
    · exact Or.inl h
    · exact Or.inr ⟨kw, hkw, Or.inl (by rw [hlow kw hkw]; exact h)⟩
    · exact Or.inr ⟨kw, hkw, Or.inr h⟩
  · rintro (h | ⟨kw, hkw, h | h⟩)
    · exact Or.inl h
    · rw [hlow kw hkw] at h
      exact Or.inr ⟨kw, hkw, Or.inl h⟩
    · exact Or.inr ⟨kw, hkw, Or.inr h⟩

/-- Claim C9 (witness): the lowercase keyword "cat" matches a market whose
question contains "CAT" in upper case. -/
theorem claim_C9_matching_predicate_witness :
    marketMatches [['c', 'a', 't']] catMarket = true ↔
      ([['c', 'a', 't']] : List (List Char)) = [] ∨ ∃ kw ∈ [['c', 'a', 't']],
        occursIn (lowerChars kw) (lowerChars catMarket.question) = true ∨
          kw = catMarket.category :=
  claim_C9_matching_predicate [['c', 'a', 't']] catMarket (by decide)

/-- Claim C10: with unique (market, user) keys, the daily quota count for
a user equals the number of DISTINCT MARKETS whose alert record carries a
timestamp on the given day — not the number of deliveries — and
overwriting the record of a market already stamped today (a re-alert
after the cooldown elapses) leaves the count unchanged. -/
theorem claim_C10_quota_counts_distinct_markets (cache : AlertCache) (uid mid : String)
    (D now t0 : Nat) (hu : uniqKeys cache) :
    countAlertsToday cache uid D = (todayMids cache uid D).card ∧
    (lookupAlert cache (mid, uid) = some t0 → dateOf t0 = dateOf now →
      countAlertsToday (insertOrReplaceAlert cache (mid, uid) now) uid (dateOf now) =
        countAlertsToday cache uid (dateOf now)) := by
  refine ⟨countAlertsToday_eq_card hu, ?_⟩
  intro hl hdt
  rw [countAlertsToday_eq_card (uniqKeys_insertOrReplaceAlert _ _ hu),
    countAlertsToday_eq_card hu, todayMids_insert_same_user rfl,
    Finset.card_insert_of_mem]
  exact mem_todayMids.2 ⟨t0, lookupAlert_mem hl, hdt⟩

/-- Claim C10 (witness): re-stamping the record of market "a" for user "u"
at minute 40 (same day as the original minute-10 record) leaves the daily
count at its previous value. -/
theorem claim_C10_quota_counts_distinct_markets_witness :
    countAlertsToday [(("a", "u"), 10)] "u" 0 =
      (todayMids [(("a", "u"), 10)] "u" 0).card ∧
    countAlertsToday (insertOrReplaceAlert [(("a", "u"), 10)] ("a", "u") 40) "u"
        (dateOf 40) =
      countAlertsToday [(("a", "u"), 10)] "u" (dateOf 40) := by
  have h := claim_C10_quota_counts_distinct_markets [(("a", "u"), 10)] "u" "a" 0 40 10
    (by unfold uniqKeys; with_unfolding_all decide)
  exact ⟨h.1, h.2 (by with_unfolding_all decide) (by with_unfolding_all decide)⟩

/-- Claim C1 (counterexample): with one market whose price swings across
the threshold every 30 minutes, the free-tier user "u" receives four
successful alert deliveries on calendar day 0 — more than the daily limit
3 — because the quota query counts alert_cache rows (one per market) and
the single row is overwritten on each re-alert. -/
theorem claim_C1_counterexample :
    dailyFreeLimit <
      ((runCycles initState swingTrace).2.filter
        (fun d => decide (d.user_id = "u" ∧ dateOf d.time = 0 ∧
          d.delivered = true))).length := by
  with_unfolding_all decide

/-- Claim C1 (amended): for every free-tier user and every calendar day,
across any sequence of polling cycles with non-decreasing clock run from
the fresh database, the number of DISTINCT MARKETS for which alerts are
delivered to that user on that day never exceeds the daily limit 3,
regardless of how many markets qualify in one cycle (the raw number of
deliveries is not bounded: the same market can be re-delivered every
cooldown window). -/
theorem claim_C1_free_tier_distinct_market_limit (cycles : List CycleInput)
    (usr : String) (D : Nat)
    (hmono : cycles.Pairwise (fun a b => a.now ≤ b.now))
    (hfree : ∀ c ∈ cycles, ∀ u ∈ c.users, u.user_id = usr → u.is_pro = false) :
    (deliveredMids (runCycles initState cycles).2 usr D).card ≤ dailyFreeLimit := by
  have h := @runCycles_inv initState cycles usr D ∅
    (by simp [uniqKeys, initState])
    (by intro r hr; simp [initState] at hr)
    hmono hfree (Finset.empty_subset _) (by simp)
  rw [Finset.empty_union] at h
  simp only [dailyFreeLimit]
  omega

/-- Claim C1 (witness): the amended bound evaluated on the concrete
five-cycle swing trace (one distinct market, four deliveries). -/
theorem claim_C1_free_tier_distinct_market_limit_witness :
    (deliveredMids (runCycles initState swingTrace).2 "u" 0).card ≤ dailyFreeLimit :=
  claim_C1_free_tier_distinct_market_limit swingTrace "u" 0
    (by with_unfolding_all decide) (by with_unfolding_all decide)

/-- Claim C2 (counterexample): user "u" already has two alert records
today; a third qualifying market is NOT delivered by the code, because the
count — taken after the cooldown write — is 3; under the claim's
count-before-grant reading the prior count is 2 < 3 and the alert would be
delivered, as the spec-ordered variant shows. -/
theorem claim_C2_counterexample :
    (stepUser 600 thirdMarket (some ⟨1/2, 1000⟩) twoPriorCache freeUserU true).2 = none ∧
    (stepUserCountBeforeGrant 600 thirdMarket (some ⟨1/2, 1000⟩) twoPriorCache freeUserU
      true).2 ≠ none ∧
    countAlertsToday twoPriorCache "u" 0 = dailyFreeLimit - 1 ∧
    countAlertsToday
      (stepUser 600 thirdMarket (some ⟨1/2, 1000⟩) twoPriorCache freeUserU true).1
      "u" 0 = dailyFreeLimit := by
  with_unfolding_all decide

/-- Claim C2 (amended): when a qualifying alert is dispatched, the daily
quota count compared against the limit is read AFTER the current alert's
cooldown slot is recorded, so the compared count includes the
newly-acquired slot (in particular it is at least 1), and the alert is
delivered only when that inclusive count is within the limit. -/
theorem claim_C2_quota_count_includes_current_slot (now : Nat) (m : Market)
    (old : Option CachedMarketData) (cache : AlertCache) (u : UserRow) (okb : Bool)
    (ty : AlertType) (det : AlertDetails)
    (hm : marketMatches u.keywords m = true)
    (hc : check_alert_conditions m old u.threshold = some (ty, det))
    (hg : (should_send_alert cache m.id u.user_id now).1 = true) :
    stepUser now m old cache u okb =
      (insertOrReplaceAlert cache (m.id, u.user_id) now,
       if u.is_pro = false ∧ dailyFreeLimit ≤ countAlertsToday
           (insertOrReplaceAlert cache (m.id, u.user_id) now) u.user_id (dateOf now)
       then none
       else some ⟨m.id, u.user_id, now, ty, det, okb⟩) ∧
    1 ≤ countAlertsToday (insertOrReplaceAlert cache (m.id, u.user_id) now) u.user_id
        (dateOf now) := by
  refine ⟨stepUser_granted_eq hm hc hg, ?_⟩
  unfold countAlertsToday insertOrReplaceAlert
  rw [List.filter_cons_of_pos (by simp), List.length_cons]
  omega

/-- Claim C2 (amended, witness): the post-write count compared by the code
on an empty store is exactly the newly-acquired slot. -/
theorem claim_C2_quota_count_includes_current_slot_witness :
    stepUser 600 thirdMarket (some ⟨1/2, 1000⟩) [] freeUserU true =
      (insertOrReplaceAlert [] (thirdMarket.id, freeUserU.user_id) 600,
       if freeUserU.is_pro = false ∧ dailyFreeLimit ≤ countAlertsToday
           (insertOrReplaceAlert [] (thirdMarket.id, freeUserU.user_id) 600)
           freeUserU.user_id (dateOf 600)
       then none
       else some ⟨thirdMarket.id, freeUserU.user_id, 600, AlertType.price_shift,
         ⟨50, 60, 20, 0⟩, true⟩) ∧
    1 ≤ countAlertsToday (insertOrReplaceAlert [] (thirdMarket.id, freeUserU.user_id) 600)
        freeUserU.user_id (dateOf 600) :=
  claim_C2_quota_count_includes_current_slot 600 thirdMarket (some ⟨1/2, 1000⟩) []
    freeUserU true AlertType.price_shift ⟨50, 60, 20, 0⟩
    (by with_unfolding_all decide) (by with_unfolding_all decide)
    (by with_unfolding_all decide)

/-- Claim C3 (counterexample): the event returned for a 0.40 → 0.48 price
move carries old_price = 40 and new_price = 48: the ×100 cents conversion
happens inside check_alert_conditions, so the event does NOT carry the raw
probabilities in [0, 1]. -/
theorem claim_C3_counterexample :
    check_alert_conditions detectMarket (some priorData) 5 =
      some (.price_shift, ⟨40, 48, 20, 20⟩) ∧
    (40 : ℚ) ≠ priorData.last_price ∧ ¬ ((40 : ℚ) ≤ 1) := by
  with_unfolding_all decide

/-- Claim C3 (amended): whenever check_alert_conditions fires (either
rule), the event carries the prior and current yes-prices ALREADY SCALED
×100 to the cents display scale — the conversion is performed inside the
detector, not downstream — together with the price and volume change
percentages rounded to one decimal place. -/
theorem claim_C3_event_fields (m : Market) (old : CachedMarketData) (threshold : ℚ)
    (ty : AlertType) (det : AlertDetails)
    (hc : check_alert_conditions m (some old) threshold = some (ty, det)) :
    det.old_price = old.last_price * 100 ∧ det.new_price = m.yes_price * 100 ∧
    det.change_pct = roundTo1 (priceChangePct m old) ∧
    det.volume_spike = roundTo1 (volumeChangePct m old) := by
  simp only [check_alert_conditions] at hc
  by_cases h1 : |priceChangePct m old| ≥ threshold
  · rw [if_pos h1] at hc
    injection Option.some.inj hc with hty hdet
    rw [← hdet]
    exact ⟨rfl, rfl, rfl, rfl⟩
  · rw [if_neg h1] at hc
    by_cases h2 : volumeChangePct m old > 200 ∧ m.volume_24h > 5000
    · rw [if_pos h2] at hc
      injection Option.some.inj hc with hty hdet
      rw [← hdet]
      exact ⟨rfl, rfl, rfl, rfl⟩
    · rw [if_neg h2] at hc
      cases hc

/-- Claim C3 (amended, witness): the field equations evaluated on the
concrete 0.40 → 0.48 event. -/
theorem claim_C3_event_fields_witness :
    (40 : ℚ) = priorData.last_price * 100 ∧
    (48 : ℚ) = detectMarket.yes_price * 100 ∧
    (20 : ℚ) = roundTo1 (priceChangePct detectMarket priorData) ∧
    (20 : ℚ) = roundTo1 (volumeChangePct detectMarket priorData) :=
  claim_C3_event_fields detectMarket priorData 5 AlertType.price_shift ⟨40, 48, 20, 20⟩
    (by with_unfolding_all decide)

/-- Claim C4 (counterexample): a cycle that fetched one market but found
no subscribed users returns early and does NOT write the market cache. -/
theorem claim_C4_counterexample :
    ([mkSnap (1/2) 1000] ≠ ([] : List Market)) ∧
    get_cached_market_data
      (poll_markets 5 initState [mkSnap (1/2) 1000] [] alwaysOk).1.market_cache
      (mkSnap (1/2) 1000).id = none := by
  with_unfolding_all decide

/-- Claim C4 (amended): for every polling cycle whose fetch returns a
non-empty list of markets (with pairwise-distinct ids) AND whose user list
is non-empty, every fetched market's cached state is overwritten with that
market's current price and volume by the end of the cycle, regardless of
whether any alert fired and regardless of delivery outcomes. -/
theorem claim_C4_market_cache_overwritten (now : Nat) (st : BotState)
    (markets : List Market) (users : List UserRow) (ok : String → String → Bool)
    (hus : users ≠ [])
    (hnd : (markets.map Market.id).Nodup) :
    ∀ m ∈ markets,
      get_cached_market_data (poll_markets now st markets users ok).1.market_cache m.id =
        some ⟨m.yes_price, m.volume_24h⟩ := by
  intro m hm
  unfold poll_markets
  have hne : ¬ (markets.isEmpty = true) := by
    rw [List.isEmpty_iff]
    intro h
    rw [h] at hm
    cases hm
  have hue : ¬ (users.isEmpty = true) := by
    rw [List.isEmpty_iff]
    exact hus
  rw [if_neg hne, if_neg hue]
  exact processMarkets_market_cache hnd m hm

/-- Claim C4 (amended, witness): one market, one user: the cycle caches
the fetched snapshot. -/
theorem claim_C4_market_cache_overwritten_witness :
    get_cached_market_data
      (poll_markets 5 initState [mkSnap (1/2) 1000] [freeUserU] alwaysOk).1.market_cache
      (mkSnap (1/2) 1000).id =
      some ⟨(mkSnap (1/2) 1000).yes_price, (mkSnap (1/2) 1000).volume_24h⟩ :=
  claim_C4_market_cache_overwritten 5 initState [mkSnap (1/2) 1000] [freeUserU] alwaysOk
    (by simp) (by simp) (mkSnap (1/2) 1000) (List.mem_cons_self _ _)

/-- Claim C8: when delivery of a granted alert fails, the cooldown record
already written for the (market, user) pair is kept: it is stamped `now`
(so it suppresses re-alerts within the window) and it counts toward the
daily quota; moreover the cycle's state evolution and every other
delivery decision are identical to the successful-delivery run, so
processing of the remaining users and markets continues unaffected. -/
theorem claim_C8_delivery_failure_keeps_slot (now : Nat) (m : Market)
    (old : Option CachedMarketData) (cache : AlertCache) (u : UserRow)
    (ty : AlertType) (det : AlertDetails)
    (hm : marketMatches u.keywords m = true)
    (hc : check_alert_conditions m old u.threshold = some (ty, det))
    (hg : (should_send_alert cache m.id u.user_id now).1 = true) :
    lookupAlert (stepUser now m old cache u false).1 (m.id, u.user_id) = some now ∧
    1 ≤ countAlertsToday (stepUser now m old cache u false).1 u.user_id (dateOf now) ∧
    (stepUser now m old cache u false).1 = (stepUser now m old cache u true).1 ∧
    (∀ st markets users f g,
      (poll_markets now st markets users f).1.alert_cache =
        (poll_markets now st markets users g).1.alert_cache ∧
      (poll_markets now st markets users f).1.market_cache =
        (poll_markets now st markets users g).1.market_cache ∧
      (poll_markets now st markets users f).2.map stripDelivered =
        (poll_markets now st markets users g).2.map stripDelivered) := by
  have h1 : (stepUser now m old cache u false).1 =
      insertOrReplaceAlert cache (m.id, u.user_id) now := by
    rw [stepUser_granted_eq hm hc hg]
  refine ⟨?_, ?_, ?_, ?_⟩
  · rw [h1]
    exact lookupAlert_insert_self _ _ _
  · rw [h1]
    unfold countAlertsToday insertOrReplaceAlert
    rw [List.filter_cons_of_pos (by simp), List.length_cons]
    omega
  · exact (stepUser_ok_independent now m old cache u false true).1
  · intro st markets users f g
    exact poll_markets_ok_independent now st markets users f g

/-- Claim C8 (witness): the kept-slot conclusions evaluated on a concrete
granted alert whose delivery fails. -/
theorem claim_C8_delivery_failure_keeps_slot_witness :
    lookupAlert (stepUser 600 thirdMarket (some ⟨1/2, 1000⟩) [] freeUserU false).1
      (thirdMarket.id, freeUserU.user_id) = some 600 ∧
    1 ≤ countAlertsToday (stepUser 600 thirdMarket (some ⟨1/2, 1000⟩) [] freeUserU false).1
        freeUserU.user_id (dateOf 600) := by
  have h := claim_C8_delivery_failure_keeps_slot 600 thirdMarket (some ⟨1/2, 1000⟩) []
    freeUserU AlertType.price_shift ⟨50, 60, 20, 0⟩ (by with_unfolding_all decide)
    (by with_unfolding_all decide) (by with_unfolding_all decide)
  exact ⟨h.1, h.2.1⟩

end EdgeAlert
